import Mathlib

/-!
Verification of the LiteScope analyzer core (`litescope/core.py`) against its
natural-language specification.

The Python source is a migen hardware description.  We embed it shallowly:
each hardware component becomes a pure Lean transition function on an explicit
state record, executed once per tick of the `scope` clock domain.  Registered
(`sync`) signals live in the state records; combinational (`comb`) signals are
recomputed inside the step functions.  Machine integers are `Nat` with explicit
`% 2 ^ w` where register width matters.  Stream endpoints follow the
litex/migen handshake convention: a payload moves on a tick where both `valid`
and `ready` hold.

Modelling conventions, fixed for the whole development:
* The control-plane CSRs (`enable`, `length`, `offset`, trigger conditions,
  decimation threshold) are resynchronised into the capture domain by
  `MultiReg`; we model the steady state after resynchronisation, i.e. the
  register values seen by the capture domain are constants of each run.
* `stream.AsyncFIFO` / `stream.SyncFIFO` (library components) are modelled as
  ordinary bounded queues: a `List` of entries, `sink.ready` iff the queue is
  not full, `source.valid` iff it is not empty, one push and/or one pop per
  tick, pops visible from the next tick.
-/

namespace LiteScope

/-- Python `int.bit_length`, by structural recursion on a fuel argument
(`fuel = n` suffices since `n / 2 < n` for `n > 0`). -/
def bitLenAux : Nat → Nat → Nat
  | 0, _ => 0
  | _ + 1, 0 => 0
  | f + 1, n => bitLenAux f (n / 2) + 1

/-- Python `int.bit_length`. -/
def bitLength (n : Nat) : Nat := bitLenAux n n

/-- migen `bits_for(n)` for `n ≥ 0`: number of bits needed to hold values up
to `n`; `bits_for(0) = 1`. -/
def bits_for (n : Nat) : Nat := if n = 0 then 1 else bitLength n

/-- A CSRStorage register of width `w` stores the written value truncated to
`w` bits. -/
def csrWrite (w v : Nat) : Nat := v % 2 ^ w

namespace Trigger

/-!
Model of `_Trigger` (core.py lines 43-96).  State: the `(mask, value)` condition
AsyncFIFO (read side), the registered `enable_d`, and the `WaitTimer(2*depth)`
count (`wcnt`; `done ⟺ wcnt = 0`, the reset value of the count is `2*depth`).

Combinational signals per tick (from the source):
  `hit   = (sink.data & mask) == (value & mask)`   (head condition)
  `mem.source.ready = (enable & hit) | ~flush.done`
  `flush.wait = ~(~enable & enable_d)`             ("flush when disabling")
  `sink.connect(source)` — data, valid and ready pass straight through —
  and then `source.hit.eq(done)` with `done = ~mem.source.valid`, so the
  forwarded hit flag is "condition queue empty", overriding the connected
  per-sample hit.
-/

/-- Trigger state: condition queue (front = FIFO head), registered enable,
and the flush `WaitTimer` count. -/
structure St where
  queue : List (Nat × Nat)
  enable_d : Bool
  wcnt : Nat
deriving DecidableEq

/-- Combinational outputs of `_Trigger` on one tick. -/
structure Outs where
  sourceValid : Bool
  sourceData : Nat
  sourceHit : Bool
  sinkReady : Bool
  popped : Bool
deriving DecidableEq

/-- `hit` for the head condition: `(data & mask) == (value & mask)`.  With an
empty queue the comparison output is unused (the FIFO pops only when
`source.valid`), so we return `false`. -/
def headMatch (d : Nat) : List (Nat × Nat) → Bool
  | [] => false
  | (m, v) :: _ => (d &&& m) == (v &&& m)

/-- One tick of `_Trigger`'s combinational logic. -/
def outs (s : St) (enable sinkValid : Bool) (d : Nat) (srcReady : Bool) : Outs :=
  let flushDone := s.wcnt == 0
  let hit := headMatch d s.queue
  let pop := (!s.queue.isEmpty) && ((enable && hit) || !flushDone)
  { sourceValid := sinkValid
    sourceData := d
    sourceHit := s.queue.isEmpty
    sinkReady := srcReady
    popped := pop }

/-- One tick of `_Trigger`'s registered state (queue pop, `enable_d`, flush
timer).  The `WaitTimer` holds `0` once done, decrements while waiting, and
reloads its reset value `2*depth` whenever `wait` is deasserted — which
happens exactly on a falling edge of `enable`. -/
def next (td : Nat) (s : St) (enable : Bool) (d : Nat) : St :=
  let wait := !(!enable && s.enable_d)
  let o := outs s enable true d true
  { queue := if o.popped then s.queue.tail else s.queue
    enable_d := enable
    wcnt := if wait then s.wcnt - 1 else 2 * td }

/-- Run `n` ticks of `_Trigger` with constant `enable` and constant sample
data `d`. -/
def iterTicks (td : Nat) (enable : Bool) (d : Nat) : Nat → St → St
  | 0, s => s
  | n + 1, s => iterTicks td enable d n (next td s enable d)

/-- Write side of the trigger condition AsyncFIFO (depth `depth`):
`mem.sink.valid = mem_write.re`, and a push lands only when the FIFO is
ready, i.e. not full. -/
def pushTick (depth : Nat) (q : List (Nat × Nat)) (c : Nat × Nat)
    (writeReq : Bool) : List (Nat × Nat) :=
  if writeReq && decide (q.length < depth) then q ++ [c] else q

/-- `mem_full.status = ~mem.sink.ready`. -/
def memFull (depth : Nat) (q : List (Nat × Nat)) : Bool :=
  !(decide (q.length < depth))

end Trigger

namespace SubSampler

/-!
Model of `_SubSampler` (core.py lines 98-125).  `value` is the resynchronised
decimation threshold (a `counter_bits`-wide CSR).  Per tick:
  `done = (counter == value)`
  `source.valid = sink.valid & done`
  counter update (when `source.ready`): reset to `0` if `done`, else `+1`
  when `sink.valid`; data and hit pass through combinationally.
-/

/-- Run the subsampler over a list of consecutive valid input samples with the
downstream stage always ready, starting from counter `c`; returns the
forwarded samples.  `w` is `counter_bits`, `t` the threshold. -/
def ssRun (w t : Nat) : Nat → List Nat → List Nat
  | _, [] => []
  | c, x :: xs =>
    if c = t then x :: ssRun w t 0 xs
    else ssRun w t ((c + 1) % 2 ^ w) xs

/-- Specification-side selection: the samples at positions `t, 2t+1, 3t+2, …`,
i.e. one out of every `t+1` consecutive samples. -/
def everyNth (t : Nat) (xs : List Nat) : List Nat :=
  (List.range (xs.length / (t + 1))).map fun k => xs.getD (k * (t + 1) + t) 0

end SubSampler

namespace RLE

/-!
Model of `_RunLengthEncoder` (core.py lines 146-214).  Registered signals:
`valid_d`, `data_d` (updated only when `sink.valid`), `hit_d`, `same_d`,
`rle_cnt`, `rle_ovf`, and the two-state FSM (`NEW` / `SAME`).
Combinational: `same = (data_d == data)`, `rle_last = ~same & same_d`, and
the per-state output logic; the emitted word is `rle_data` with flag bit
`rle_encoded` (0 = literal, 1 = run count).  The counter is
`min(24, data_width)` bits wide (`w` below) and wraps modulo `2 ^ w`.
-/

/-- RLE encoder state.  `st = false` is the `NEW` state, `st = true` the
`SAME` state. -/
structure St where
  st : Bool
  data_d : Nat
  valid_d : Bool
  hit_d : Bool
  same_d : Bool
  cnt : Nat
  ovf : Bool
deriving DecidableEq

/-- `rle_cnt_max = 2 ** counter_width - 1`. -/
def cntMax (w : Nat) : Nat := 2 ^ w - 1

/-- One tick of `_RunLengthEncoder`.  Inputs are the sink payload
(`valid`, `data`, `hit`), the downstream `source.ready` and the external
`reinit` pulse.  Returns the next state and the emitted entry
`(rle_encoded, rle_data)` when `source.valid` (`rle_valid`) is asserted.
In `SAME`, migen's last-assignment-wins semantics makes the
`If(rle_ovf | reinit, ...)` block override the payload and the
`NextValue`s of `rle_cnt` / `rle_ovf`. -/
def step (w : Nat) (s : St) (valid : Bool) (data : Nat) (hit ready reinit : Bool) :
    St × Option (Bool × Nat) :=
  let same : Bool := s.data_d == data
  let rleLast : Bool := !same && s.same_d
  let data_d' := if valid then data else s.data_d
  if s.st then
    let atMax : Bool := s.cnt == cntMax w
    let rleValid : Bool := rleLast || s.ovf || atMax
    let entry : Bool × Nat := if s.ovf || reinit then (false, s.data_d) else (true, s.cnt)
    let cnt' := if s.ovf || reinit then 0 else (s.cnt + 1) % 2 ^ w
    let ovf' := if s.ovf || reinit then false else (s.ovf || atMax)
    (⟨!rleLast, data_d', valid, hit, same, cnt', ovf'⟩,
      if rleValid then some entry else none)
  else
    (⟨same && ready && s.hit_d, data_d', valid, hit, same, 0, false⟩,
      if s.valid_d then some (false, s.data_d) else none)

/-- Feed a list of samples, one per tick, all with `valid = 1`, `hit = 1`,
`ready = 1` and no `reinit` (the post-trigger streaming regime); collect the
emitted entries. -/
def feed (w : Nat) : St → List Nat → St × List (Bool × Nat)
  | s, [] => (s, [])
  | s, x :: xs =>
    let p := step w s true x true true false
    let q := feed w p.1 xs
    (q.1, p.2.toList ++ q.2)

/-- Reset state of the encoder: `NEW`, all registers cleared. -/
def st0 : St := ⟨false, 0, false, false, false, 0, false⟩

/-- The encoder's output for a finite sample sequence: feed every sample,
then run one further tick with `sink.valid = 0` so that the literal for the
final sample (emitted one tick late, out of `data_d`) is collected. -/
def rleEncode (w : Nat) (xs : List Nat) : List (Bool × Nat) :=
  let p := feed w st0 xs
  p.2 ++ (step w p.1 false 0 false true false).2.toList

/-- Modelled from the spec: the external decoder (not part of this
repository).  Flag bit 0 of each emitted word discriminates literal (0) from
run count (1); a literal is appended and becomes the current literal; a run
count `c` expands to `c + 1` further copies of the current literal. -/
def decodeC : List (Bool × Nat) → Nat → List Nat
  | [], _ => []
  | (false, v) :: rest, _ => v :: decodeC rest v
  | (true, c) :: rest, lit => List.replicate (c + 1) lit ++ decodeC rest lit

/-- Decode an encoded stream (initial current literal is irrelevant: a
well-formed stream starts with a literal entry). -/
def rleDecode (es : List (Bool × Nat)) : List Nat := decodeC es 0

/-- Samples the encoder still owes the decoder: in `NEW` the registered
previous sample (if any), in `SAME` the `cnt + 1` not-yet-flushed copies of
the current run value. -/
def pend (s : St) : List Nat :=
  if s.st then List.replicate (s.cnt + 1) s.data_d
  else if s.valid_d then [s.data_d] else []

/-- The decoder's current literal after consuming a list of entries. -/
def ctxAfter (es : List (Bool × Nat)) (ctx : Nat) : Nat :=
  es.foldl (fun c e => if e.1 then c else e.2) ctx

/-- Reachability invariant of the encoder under all-valid input: the counter
fits its width, `same_d` holds in `SAME`, `ovf` implies a just-wrapped
counter, and `hit_d` is only set once a sample has been registered. -/
def inv (w : Nat) (s : St) : Prop :=
  s.cnt < 2 ^ w ∧ (s.st = true → s.same_d = true) ∧ (s.ovf = true → s.cnt = 0) ∧
    (s.hit_d = true → s.valid_d = true)

end RLE

namespace Capture

/-!
Model of the capture pipeline for a whole session: `_Trigger → _SubSampler →
_Storage` (core.py lines 217-322 and 358-370; the mux source is always
valid).  One `tick` advances every component of the `scope` domain once, in
lock step, with all combinational signals of the tick evaluated from the
same state — exactly the semantics of the migen description.

Scope of the model:
* `enable` (both trigger and storage) is held high for the whole run and the
  trigger flush timer has already expired (`tcnt = 0`): the host armed the
  core, pushed its conditions, and the session starts in the storage FSM's
  `WAIT` state with a flushed buffer.  The IDLE→FLUSH→WAIT prologue of the
  storage FSM is part of `tick` but the scenario starts after it.
* The readout path (`cdc` AsyncFIFO, width converter, `mem_data` CSR) is
  modelled as the reader being always ready: while `IDLE`, buffered entries
  drain in order into `rdQ`.
-/

/-- Session configuration (resynchronised CSR values, constant per run). -/
structure Cfg where
  depth : Nat
  offset : Nat
  sessionLength : Nat
  threshold : Nat
  ssBits : Nat
deriving DecidableEq

/-- States of the `_Storage` FSM. -/
inductive Phase
  | idle
  | flushSt
  | waitSt
  | runSt
deriving DecidableEq

/-- Capture-domain state of the whole pipeline. -/
structure St where
  /-- trigger condition FIFO (read side), front = head. -/
  queue : List (Nat × Nat)
  /-- trigger flush `WaitTimer(2*trigger_depth)` count (0 = done). -/
  tcnt : Nat
  /-- subsampler counter. -/
  ssCnt : Nat
  /-- storage FSM state. -/
  phase : Phase
  /-- storage `SyncFIFO` contents, front = oldest. -/
  buf : List Nat
  /-- storage `mem_flush` `WaitTimer(depth)` count. -/
  mcnt : Nat
  /-- buffer contents at the moment the FSM returned to `IDLE`. -/
  captured : Option (List Nat)
  /-- samples handed to the reader while `IDLE`. -/
  rdQ : List Nat
deriving DecidableEq

/-- One tick of the whole capture pipeline on mux output sample `d`
(mux `source.valid` is constantly 1). -/
def tick (cfg : Cfg) (s : St) (d : Nat) : St :=
  -- _Trigger (enable held high, so no enable edge and flush.wait stays high)
  let hmatch := Trigger.headMatch d s.queue
  let pop := (!s.queue.isEmpty) && (hmatch || !(s.tcnt == 0))
  let queue' := if pop then s.queue.tail else s.queue
  let tcnt' := s.tcnt - 1
  let hit := s.queue.isEmpty
  -- _SubSampler
  let ssDone := s.ssCnt == cfg.threshold
  let sValid := ssDone
  -- _Storage: sink ready only in WAIT/RUN, where the sink feeds mem.sink
  let ready := (s.phase == Phase.waitSt || s.phase == Phase.runSt) &&
    decide (s.buf.length < cfg.depth)
  let ssCnt' := if ready then (if ssDone then 0 else (s.ssCnt + 1) % 2 ^ cfg.ssBits)
    else s.ssCnt
  let push := sValid && ready
  match s.phase with
  | Phase.idle =>
    -- done=1; mem.source.connect(cdc.sink): drain toward the reader.
    -- enable is steadily high, so the IDLE→FLUSH rising-edge test never fires
    -- within a run that starts enabled.
    { queue := queue', tcnt := tcnt', ssCnt := ssCnt', phase := Phase.idle
      buf := s.buf.tail, mcnt := cfg.depth, captured := s.captured
      rdQ := s.rdQ ++ s.buf.take 1 }
  | Phase.flushSt =>
    -- mem_flush.wait=1; mem.source.ready=1; leave after `depth` ticks.
    { queue := queue', tcnt := tcnt', ssCnt := ssCnt'
      phase := if s.mcnt == 0 then Phase.waitSt else Phase.flushSt
      buf := s.buf.tail, mcnt := s.mcnt - 1, captured := s.captured, rdQ := s.rdQ }
  | Phase.waitSt =>
    -- sink → mem.sink; evict from the front while level ≥ offset;
    -- leave for RUN on a valid sample with the hit flag set.
    let evict := decide (s.buf.length ≥ cfg.offset)
    { queue := queue', tcnt := tcnt', ssCnt := ssCnt'
      phase := if sValid && hit then Phase.runSt else Phase.waitSt
      buf := (if evict then s.buf.tail else s.buf) ++ (if push then [d] else [])
      mcnt := cfg.depth, captured := s.captured, rdQ := s.rdQ }
  | Phase.runSt =>
    -- sink → mem.sink, no eviction; back to IDLE once level ≥ length.
    let buf' := s.buf ++ (if push then [d] else [])
    if decide (s.buf.length ≥ cfg.sessionLength) then
      { queue := queue', tcnt := tcnt', ssCnt := ssCnt', phase := Phase.idle
        buf := buf', mcnt := cfg.depth, captured := some buf', rdQ := s.rdQ }
    else
      { queue := queue', tcnt := tcnt', ssCnt := ssCnt', phase := Phase.runSt
        buf := buf', mcnt := cfg.depth, captured := s.captured, rdQ := s.rdQ }

/-- Run the pipeline over a sample sequence, one sample per tick. -/
def runTicks (cfg : Cfg) (s : St) (ds : List Nat) : St := ds.foldl (tick cfg) s

/-- The spec scenario's configuration: depth 16, offset 4, length 8,
decimation threshold 0, no compression. -/
def scenarioCfg : Cfg := ⟨16, 4, 8, 0, 16⟩

/-- The spec scenario's armed initial state: one pending trigger condition
`mask = 0xFF, value = 5`, storage waiting in `WAIT` with an empty buffer. -/
def scenarioInit : St := ⟨[(0xFF, 5)], 0, 0, Phase.waitSt, [], 16, none, []⟩

/-- Captured window of the spec scenario: feed samples `0, 1, …, 19`. -/
def scenarioCapture : Option (List Nat) :=
  (runTicks scenarioCfg scenarioInit (List.range 20)).captured

end Capture

namespace Analyzer

/-!
Model of `LiteScopeAnalyzer.__init__` (core.py lines 324-370), `format_groups`
(372-392) and `export_csv` (394-405), plus the runtime `length` / `offset`
CSR write path of `_Storage` (lines 232-233).
-/

/-- `sum([len(s) for s in g])`: a group is modelled by the widths of its
(already flattened) signals. -/
def groupWidth (g : List Nat) : Nat := g.foldl (· + ·) 0

/-- The construction-time computation of `LiteScopeAnalyzer.__init__` on the
repository's own code path: `data_width = max(...)` over the groups — which
raises `ValueError` on an empty sequence — then widened to `rle_nbits_min`
when compression is requested.  `depth` and `trigger_depth` are accepted
without any validation; `offset` and `length` are not constructor inputs at
all.  Returns the computed `data_width`. -/
def analyzerInit (groups : List (List Nat)) (depth trigger_depth : Nat)
    (rle_nbits_min : Option Nat) : Except String Nat :=
  let _ := depth
  let _ := trigger_depth
  match groups with
  | [] => Except.error "max() arg is an empty sequence"
  | g :: gs =>
    let dw := (gs.map groupWidth).foldl Nat.max (groupWidth g)
    Except.ok (match rle_nbits_min with
      | some m => Nat.max dw m
      | none => dw)

/-- Runtime write to `_Storage`'s `offset` CSR (`CSRStorage(bits_for(depth))`):
truncated to the register width, never range-checked against `depth`. -/
def storageOffsetWrite (depth v : Nat) : Nat := csrWrite (bits_for depth) v

/-- Runtime write to `_Storage`'s `length` CSR: same width, same absence of
any range check. -/
def storageLengthWrite (depth v : Nat) : Nat := csrWrite (bits_for depth) v

end Analyzer

namespace Export

/-!
Model of `LiteScopeAnalyzer.export_csv` (core.py lines 394-405).  `vns.get_name(s)`
and `len(s)` are modelled by carrying each signal as a `(name, width)` pair.
-/

/-- Analyzer attributes read by `export_csv`. -/
structure Cfg where
  data_width : Nat
  depth : Nat
  samplerate : Nat
  subsampler_bits : Nat
  rle : Bool
deriving DecidableEq

/-- `format_line(*args) = ",".join(args) + "\n"`. -/
def formatLine (args : List String) : String :=
  String.intercalate "," args ++ "\n"

/-- The rows written by `export_csv`, in emission order: five `config` rows,
then one `signal` row per signal of each group, following the group and
declaration order.  (Each `r += format_line(...)` appends one row.) -/
def exportRows (c : Cfg) (gs : List (Nat × List (String × Nat))) :
    List (List String) :=
  let r := [["config", "None", "data_width", toString c.data_width]]
  let r := r ++ [["config", "None", "depth", toString c.depth]]
  let r := r ++ [["config", "None", "samplerate", toString c.samplerate]]
  let r := r ++ [["config", "None", "subsampler_counter_bits", toString c.subsampler_bits]]
  let r := r ++ [["config", "None", "rle", toString (if c.rle then 1 else 0)]]
  gs.foldl (fun acc g =>
    g.2.foldl (fun a s => a ++ [["signal", toString g.1, s.1, toString s.2]]) acc) r

/-- The file contents: the concatenation of the formatted rows. -/
def exportCsv (c : Cfg) (gs : List (Nat × List (String × Nat))) : String :=
  (exportRows c gs).foldl (fun acc row => acc ++ formatLine row) ""

/-- Specification-side header block (the keys the code actually writes). -/
def headerRows (c : Cfg) : List (List String) :=
  [["config", "None", "data_width", toString c.data_width],
   ["config", "None", "depth", toString c.depth],
   ["config", "None", "samplerate", toString c.samplerate],
   ["config", "None", "subsampler_counter_bits", toString c.subsampler_bits],
   ["config", "None", "rle", toString (if c.rle then 1 else 0)]]

/-- Specification-side signal block: one row per signal, in group order. -/
def signalRows (gs : List (Nat × List (String × Nat))) : List (List String) :=
  gs.flatMap fun g => g.2.map fun s => ["signal", toString g.1, s.1, toString s.2]

end Export

namespace Groups

/-!
Model of `LiteScopeAnalyzer.format_groups` (core.py lines 372-392).  migen values are
modelled abstractly: a plain `Signal` by an identifier, a `Record` by the
list of leaf signals its `flatten()` returns, an `FSM` by its `state`
signal.  `list(dict.fromkeys(xs))` removes duplicates keeping the first
occurrence of each element, in order.
-/

/-- A migen value appearing in a group. -/
inductive Elem
  | sig (id : Nat)
  | record (leaves : List Nat)
  | fsmElem (stateId : Nat)
deriving DecidableEq

/-- The `groups` argument: either a dict or any other value. -/
inductive GroupVal
  | one (e : Elem)
  | many (es : List Elem)
deriving DecidableEq

/-- Either a dict of groups or a bare (non-dict) value. -/
inductive GroupsArg
  | nondict (v : GroupVal)
  | dict (entries : List (Nat × GroupVal))
deriving DecidableEq

/-- `if not isinstance(signals, list): signals = [signals]`. -/
def valList : GroupVal → List Elem
  | GroupVal.one e => [e]
  | GroupVal.many es => es

/-- The per-element expansion of the `for s in signals` loop: a `Record` is
replaced by its flattened leaf signals, an `FSM` by its state signal, and a
plain signal kept as is. -/
def splitElem : Elem → List Elem
  | Elem.sig i => [Elem.sig i]
  | Elem.record ls => ls.map Elem.sig
  | Elem.fsmElem st => [Elem.sig st]

/-- `list(dict.fromkeys(xs))`: insertion-ordered key set, i.e. duplicates are
dropped and each element keeps its first position. -/
def pydedup [DecidableEq α] (l : List α) : List α :=
  l.foldl (fun acc x => if acc.contains x then acc else acc ++ [x]) []

/-- One group's processing: wrap non-lists, expand records and FSMs, then
deduplicate. -/
def fmtEntry (v : GroupVal) : List Elem :=
  pydedup ((valList v).flatMap splitElem)

/-- `format_groups`. -/
def formatGroups : GroupsArg → List (Nat × List Elem)
  | GroupsArg.nondict v => [(0, fmtEntry v)]
  | GroupsArg.dict entries => entries.map fun p => (p.1, fmtEntry p.2)

/-- Specification-side first-occurrence deduplication: keep an element, then
delete every later occurrence of it. -/
def firstOccs [DecidableEq α] : List α → List α
  | [] => []
  | x :: xs => x :: firstOccs (xs.filter fun y => !(y == x))
termination_by l => l.length
decreasing_by
  simp only [List.length_cons]
  exact Nat.lt_succ_of_le (List.length_filter_le _ _)

end Groups

/-! ## Helper lemmas -/

theorem disabledRun_drop (td : Nat) :
    ∀ (k : Nat) (q : List (Nat × Nat)) (c : Nat),
      (Trigger.iterTicks td false 0 k ⟨q, false, c⟩).queue = q.drop (min k c)
  | 0, q, c => by simp [Trigger.iterTicks]
  | k + 1, q, c => by
    match c, q with
    | 0, q =>
      have ih := disabledRun_drop td k q 0
      simp [Trigger.iterTicks, Trigger.next, Trigger.outs] at ih ⊢
      simpa using ih
    | c + 1, [] =>
      have ih := disabledRun_drop td k [] c
      simp [Trigger.iterTicks, Trigger.next, Trigger.outs] at ih ⊢
      simpa using ih
    | c + 1, x :: q =>
      have ih := disabledRun_drop td k q c
      simp [Trigger.iterTicks, Trigger.next, Trigger.outs] at ih ⊢
      rw [Nat.succ_min_succ]
      simpa using ih

theorem enabledRun_fixed (td : Nat) (d : Nat) (q : List (Nat × Nat))
    (hm : Trigger.headMatch d q = false) :
    ∀ (k : Nat) (ed : Bool),
      (Trigger.iterTicks td true d k ⟨q, ed, 0⟩).queue = q
  | 0, ed => by simp [Trigger.iterTicks]
  | k + 1, ed => by
    have ih := enabledRun_fixed td d q hm k true
    simp [Trigger.iterTicks, Trigger.next, Trigger.outs, hm] at ih ⊢
    simpa using ih

/-! ## Claim theorems -/

/-- C3 counterexample: the constructor code performs no validation of a zero
buffer depth or a zero trigger-queue depth (construction succeeds with both
zero), and an out-of-range `offset` (20 with `depth = 16`) is accepted
unchanged by the runtime CSR write — so these conditions are not rejected at
construction time. -/
theorem analyzer_validation_counterexample :
    Analyzer.analyzerInit [[8]] 0 0 none = Except.ok 8 ∧
      Analyzer.storageOffsetWrite 16 20 = 20 := by
  constructor <;> rfl

/-- C3 amended: only the zero-groups case fails at construction time (the
`max()` over an empty sequence raises); zero `depth` and zero `trigger_depth`
are accepted without any check; `offset` and `length` are runtime CSR writes,
not constructor inputs, merely truncated to `bits_for(depth)` bits and never
compared with `depth`, so `offset > depth` / `length > depth` are accepted at
runtime. -/
theorem analyzer_validation_amended :
    (∀ depth td r, Analyzer.analyzerInit [] depth td r =
      Except.error "max() arg is an empty sequence") ∧
    Analyzer.analyzerInit [[8]] 0 0 none = Except.ok 8 ∧
    Analyzer.storageOffsetWrite 16 20 = 20 ∧
    Analyzer.storageLengthWrite 16 31 = 31 := by
  refine ⟨fun depth td r => rfl, rfl, rfl, rfl⟩

/-- C8: a push into a full trigger-condition queue is rejected — the
`mem_full` status flag reads true at that moment — and the queue contents,
every already-enqueued condition in its position, are unchanged. -/
theorem trigger_queue_full_reject (depth : Nat) (q : List (Nat × Nat))
    (c : Nat × Nat) (h : q.length = depth) :
    Trigger.memFull depth q = true ∧ Trigger.pushTick depth q c true = q := by
  subst h
  constructor
  · simp [Trigger.memFull]
  · simp [Trigger.pushTick]

/-- C8 witness: a concrete full queue of capacity 2. -/
theorem trigger_queue_full_reject_witness :
    ([((1 : Nat), (2 : Nat)), (3, 4)].length = 2) ∧
      (Trigger.memFull 2 [(1, 2), (3, 4)] = true ∧
        Trigger.pushTick 2 [(1, 2), (3, 4)] (5, 6) true = [(1, 2), (3, 4)]) :=
  ⟨by decide, trigger_queue_full_reject 2 [(1, 2), (3, 4)] (5, 6) (by decide)⟩

/-- C2 counterexample: with the matcher enabled, past its flush window and
one queued condition `(0xFF, 5)`, the matching sample 5 is forwarded with its
hit flag still 0 (the forwarded hit is "queue empty", which only becomes true
one tick after the pop), and on the non-matching sample 4 the stage does not
stall: its sink ready mirrors the downstream ready instead of dropping low. -/
theorem trigger_hit_counterexample :
    (Trigger.outs ⟨[(0xFF, 5)], true, 0⟩ true true 5 true).sourceHit = false ∧
      (Trigger.outs ⟨[(0xFF, 5)], true, 0⟩ true true 4 true).sinkReady = true := by
  constructor <;> rfl

/-- C2 amended: while enabled and past the flush window with a queued head
condition, the match bit is `(sample & mask) == (value & mask)`; on a match
the head condition (and only it) is dequeued; the sample is always forwarded
(valid, data and ready pass straight through — the stage never stalls); the
forwarded hit flag equals "condition queue empty", so the matching sample
itself carries `hit = 0` while the queue is still non-empty, and samples seen
with an empty queue carry `hit = 1`. -/
theorem trigger_step_amended (td m v : Nat) (rest : List (Nat × Nat))
    (d : Nat) (sv ready : Bool) :
    (Trigger.outs ⟨(m, v) :: rest, true, 0⟩ true sv d ready).sourceData = d ∧
    (Trigger.outs ⟨(m, v) :: rest, true, 0⟩ true sv d ready).sourceValid = sv ∧
    (Trigger.outs ⟨(m, v) :: rest, true, 0⟩ true sv d ready).sinkReady = ready ∧
    (Trigger.outs ⟨(m, v) :: rest, true, 0⟩ true sv d ready).sourceHit = false ∧
    (Trigger.next td ⟨(m, v) :: rest, true, 0⟩ true d).queue =
      (if (d &&& m) = (v &&& m) then rest else (m, v) :: rest) ∧
    (Trigger.outs ⟨[], true, 0⟩ true sv d ready).sourceHit = true := by
  refine ⟨rfl, rfl, rfl, rfl, ?_, rfl⟩
  by_cases h : (d &&& m) = (v &&& m) <;>
    simp [Trigger.next, Trigger.outs, Trigger.headMatch, h]

/-- C4 counterexample: with `trigger_depth = 2` (claimed flush window
`2 × 2 = 4` ticks) and one stale condition `(1, 1)` queued, a disable→enable
transition followed by 5 enabled ticks of non-matching samples discards
nothing — the queue still holds the condition — and a single tick in the
disabled state (flush timer long expired) also discards nothing, contradicting
both the claimed trigger edge of the flush window and the claimed discarding
on every disabled tick. -/
theorem trigger_flush_counterexample :
    (Trigger.iterTicks 2 true 0 5 ⟨[(1, 1)], false, 0⟩).queue = [(1, 1)] ∧
      (Trigger.iterTicks 2 false 0 1 ⟨[(1, 1)], false, 0⟩).queue = [(1, 1)] := by
  constructor <;> rfl

/-- C4 amended: head-of-queue conditions are discarded, one per tick and
without requiring a match, exactly while the flush `WaitTimer` is not done;
that timer restarts on the falling (enable→disable) edge of the trigger
enable bit — not on the disable→enable transition — and then runs for
`2 × trigger_depth` ticks, after which no further unconditional discarding
happens even while disabled; after a disable→enable transition with the timer
already done, no condition is discarded without a match. -/
theorem trigger_flush_amended :
    (∀ (td k : Nat) (q : List (Nat × Nat)),
      (Trigger.iterTicks td false 0 (1 + 2 * td + k) ⟨q, true, 0⟩).queue =
        q.drop (2 * td)) ∧
    (∀ (td k d : Nat) (q : List (Nat × Nat)),
      Trigger.headMatch d q = false →
        (Trigger.iterTicks td true d k ⟨q, false, 0⟩).queue = q) := by
  constructor
  · intro td k q
    have h1 : 1 + 2 * td + k = (2 * td + k) + 1 := by omega
    rw [h1]
    show (Trigger.iterTicks td false 0 (2 * td + k)
      (Trigger.next td ⟨q, true, 0⟩ false 0)).queue = q.drop (2 * td)
    have h2 : Trigger.next td ⟨q, true, 0⟩ false 0 = ⟨q, false, 2 * td⟩ := by
      simp [Trigger.next, Trigger.outs]
    rw [h2, disabledRun_drop td (2 * td + k) q (2 * td),
      Nat.min_eq_right (by omega)]
  · intro td k d q hm
    exact enabledRun_fixed td d q hm k false

/-- C4 witness: trigger depth 2, five stale conditions; the falling edge
drains exactly `2 × 2 = 4` of them over the following window and then stops,
and an enabled run over a non-matching sample leaves the queue untouched. -/
theorem trigger_flush_amended_witness :
    ((Trigger.iterTicks 2 false 0 (1 + 2 * 2 + 3)
        ⟨[(1, 1), (2, 2), (3, 3), (4, 4), (5, 5)], true, 0⟩).queue =
      [(1, 1), (2, 2), (3, 3), (4, 4), (5, 5)].drop (2 * 2)) ∧
    (Trigger.headMatch 0 [(1, 1)] = false ∧
      (Trigger.iterTicks 2 true 0 5 ⟨[(1, 1)], false, 0⟩).queue = [(1, 1)]) :=
  ⟨trigger_flush_amended.1 2 3 [(1, 1), (2, 2), (3, 3), (4, 4), (5, 5)],
    by decide, trigger_flush_amended.2 2 5 0 [(1, 1)] (by decide)⟩

/-- C1 counterexample: in the spec's own scenario (depth 16, offset 4,
length 8, threshold 0, no compression, samples 0…19, condition
mask 0xFF / value 5) the completed capture window is not
`[1, 2, …, 12]`. -/
theorem capture_scenario_counterexample :
    Capture.scenarioCapture ≠
      some [1, 2, 3, 4, 5, 6, 7, 8, 9, 10, 11, 12] := by
  decide

/-- C1 amended: in the scenario the session completes with the buffer
holding `[3, 4, …, 11]` — nine samples, not `offset + length = 12`: the
forwarded hit flag lags the matching sample by one tick (it reads "queue
empty", which 5's match only makes true from the next sample on), the
pre-trigger window keeps at most `offset` samples and is still evicted on
the transition tick, and the `RUN` state leaves once the occupancy has
reached `length` while still accepting one further sample on that tick, so
the total window is `length + 1` samples ending two samples after
`offset + length` would. -/
theorem capture_scenario_amended :
    Capture.scenarioCapture = some [3, 4, 5, 6, 7, 8, 9, 10, 11] := by
  decide

theorem signal_foldl_rows (i : Nat) :
    ∀ (sigs : List (String × Nat)) (acc : List (List String)),
      sigs.foldl (fun a s => a ++ [["signal", toString i, s.1, toString s.2]]) acc
        = acc ++ sigs.map fun s => ["signal", toString i, s.1, toString s.2]
  | [], acc => by simp
  | s :: sigs, acc => by
    rw [List.foldl_cons, signal_foldl_rows i sigs]
    simp

theorem group_foldl_rows :
    ∀ (gs : List (Nat × List (String × Nat))) (acc : List (List String)),
      gs.foldl (fun acc g =>
          g.2.foldl (fun a s => a ++ [["signal", toString g.1, s.1, toString s.2]]) acc)
        acc = acc ++ Export.signalRows gs
  | [], acc => by simp [Export.signalRows]
  | g :: gs, acc => by
    rw [List.foldl_cons, signal_foldl_rows g.1 g.2, group_foldl_rows gs]
    simp [Export.signalRows]

/-- C9 counterexample: the header keys the code writes are literally
`data_width`, `depth`, `samplerate`, `subsampler_counter_bits` and `rle` —
not `decimation_counter_bits` and `rle_enabled` as the claim states — and
every header row carries a leading `config,None` tag pair. -/
theorem export_csv_keys_counterexample :
    Export.exportCsv ⟨8, 16, 100, 16, false⟩ [(0, [("a", 8)])] =
      "config,None,data_width,8\nconfig,None,depth,16\nconfig,None,samplerate,100\nconfig,None,subsampler_counter_bits,16\nconfig,None,rle,0\nsignal,0,a,8\n" ∧
    (Export.exportRows ⟨8, 16, 100, 16, false⟩ [(0, [("a", 8)])]).map
        (fun r => r.getD 2 "") =
      ["data_width", "depth", "samplerate", "subsampler_counter_bits", "rle", "a"] ∧
    "subsampler_counter_bits" ≠ "decimation_counter_bits" ∧
    "rle" ≠ "rle_enabled" := by
  refine ⟨rfl, rfl, by decide, by decide⟩

/-- C9 amended: the export is a text table whose rows are, in order, a
header block of `config,None,key,value` rows for exactly the keys
`data_width`, `depth`, `samplerate`, `subsampler_counter_bits` and `rle`,
followed by one `signal,group_index,name,bit_width` row per captured signal
in group/declaration order. -/
theorem export_rows_amended (c : Export.Cfg)
    (gs : List (Nat × List (String × Nat))) :
    Export.exportRows c gs = Export.headerRows c ++ Export.signalRows gs := by
  show gs.foldl _ _ = _
  rw [group_foldl_rows gs]
  rfl

theorem pydedup_go {α : Type} [DecidableEq α] :
    ∀ (l acc : List α),
      l.foldl (fun acc x => if acc.contains x then acc else acc ++ [x]) acc
        = acc ++ Groups.firstOccs (l.filter fun y => !(acc.contains y))
  | [], acc => by simp [Groups.firstOccs]
  | x :: xs, acc => by
    by_cases h : acc.contains x = true
    · rw [List.foldl_cons, if_pos h, pydedup_go xs acc]
      have hm : x ∈ acc := by simpa using h
      congr 2
      simp [List.filter_cons, hm]
    · rw [List.foldl_cons, if_neg h, pydedup_go xs (acc ++ [x])]
      have hm : x ∉ acc := by simpa using h
      rw [List.filter_cons_of_pos (by simpa using hm)]
      rw [show Groups.firstOccs (x :: List.filter (fun y => !(acc.contains y)) xs)
          = x :: Groups.firstOccs ((List.filter (fun y => !(acc.contains y)) xs).filter
              fun y => !(y == x)) from by simp [Groups.firstOccs]]
      rw [List.filter_filter]
      have hpred : ∀ y : α,
          (!((acc ++ [x]).contains y)) = ((!(y == x)) && !(acc.contains y)) := by
        intro y
        by_cases h1 : y = x
        · subst h1
          simp
        · have h2 : (y == x) = false := by simp [h1]
          simp only [h2, Bool.not_false, Bool.true_and]
          simp [h1]
      simp only [hpred]
      simp

theorem pydedup_eq_firstOccs {α : Type} [DecidableEq α] (l : List α) :
    Groups.pydedup l = Groups.firstOccs l := by
  rw [Groups.pydedup, pydedup_go l []]
  simp

/-- C10: `format_groups` wraps a non-dict argument as the single group with
index 0; wraps a non-list group value in a one-element list; replaces a
`Record` by its flattened component signals; and deduplicates each group,
keeping only the first occurrence of each signal and preserving the order of
first occurrences (`firstOccs` keeps an element and deletes all its later
occurrences). -/
theorem format_groups_spec :
    (∀ v, Groups.formatGroups (Groups.GroupsArg.nondict v) =
      Groups.formatGroups (Groups.GroupsArg.dict [(0, v)])) ∧
    (∀ e, Groups.valList (Groups.GroupVal.one e) =
      Groups.valList (Groups.GroupVal.many [e])) ∧
    (∀ ls, Groups.splitElem (Groups.Elem.record ls) = ls.map Groups.Elem.sig) ∧
    (∀ entries, Groups.formatGroups (Groups.GroupsArg.dict entries) =
      entries.map fun p =>
        (p.1, Groups.firstOccs ((Groups.valList p.2).flatMap Groups.splitElem))) := by
  refine ⟨fun v => rfl, fun e => rfl, fun ls => rfl, fun entries => ?_⟩
  simp [Groups.formatGroups, Groups.fmtEntry, pydedup_eq_firstOccs]

theorem ssRun_get? (w t : Nat) (ht : t < 2 ^ w) :
    ∀ (xs : List Nat) (c k : Nat), c ≤ t →
      (SubSampler.ssRun w t c xs).get? k = xs.get? (k * (t + 1) + (t - c))
  | [], c, k, hc => by simp [SubSampler.ssRun]
  | x :: xs, c, k, hc => by
    by_cases h : c = t
    · subst h
      cases k with
      | zero => simp [SubSampler.ssRun]
      | succ k =>
        have ih := ssRun_get? w c ht xs 0 k (Nat.zero_le c)
        have harith : (k + 1) * (c + 1) + (c - c) = (k * (c + 1) + c) + 1 := by
          rw [Nat.succ_mul]
          omega
        simp only [SubSampler.ssRun, harith, ite_true, eq_self_iff_true,
          List.get?_cons_succ]
        rw [ih]
        simp
    · have hc' : c + 1 ≤ t := by omega
      have hmod : (c + 1) % 2 ^ w = c + 1 := Nat.mod_eq_of_lt (by omega)
      have ih := ssRun_get? w t ht xs (c + 1) k hc'
      have harith : k * (t + 1) + (t - c) = (k * (t + 1) + (t - (c + 1))) + 1 := by
        omega
      simp only [SubSampler.ssRun, if_neg h, hmod, harith, List.get?_cons_succ]
      exact ih

theorem ssRun_sublist (w t : Nat) :
    ∀ (xs : List Nat) (c : Nat), (SubSampler.ssRun w t c xs).Sublist xs
  | [], c => by simp [SubSampler.ssRun]
  | x :: xs, c => by
    by_cases h : c = t
    · simpa [SubSampler.ssRun, h] using (ssRun_sublist w t xs 0).cons₂ x
    · simpa [SubSampler.ssRun, h] using
        (ssRun_sublist w t xs ((c + 1) % 2 ^ w)).cons x

/-- C5: for every threshold `t` (a `counter_bits`-wide register value) and
every sequence of consecutive valid input samples presented while the
downstream stage is ready, the decimator forwards exactly one of every `t+1`
consecutive samples — the ones at positions `t, 2t+1, 3t+2, …`, i.e. those on
which its counter equals `t` — silently dropping the rest, and the forwarded
subsequence is a sublist of the input, so samples are never reordered. -/
theorem subsampler_decimation (w t : Nat) (xs : List Nat) (ht : t < 2 ^ w) :
    SubSampler.ssRun w t 0 xs = SubSampler.everyNth t xs ∧
      (SubSampler.ssRun w t 0 xs).Sublist xs := by
  refine ⟨?_, ssRun_sublist w t xs 0⟩
  apply List.ext_get?
  intro k
  rw [ssRun_get? w t ht xs 0 k (Nat.zero_le t), Nat.sub_zero]
  rw [SubSampler.everyNth, List.get?_map]
  by_cases hk : k < xs.length / (t + 1)
  · rw [List.get?_range hk]
    have hlt : k * (t + 1) + t < xs.length := by
      have h1 : (k + 1) * (t + 1) ≤ xs.length :=
        (Nat.le_div_iff_mul_le (Nat.succ_pos t)).mp hk
      have h2 : (k + 1) * (t + 1) = k * (t + 1) + t + 1 := by
        rw [Nat.succ_mul]; omega
      omega
    rw [List.get?_eq_get hlt]
    simp only [List.get_eq_getElem, Option.map_some', Option.some.injEq]
    rw [List.getD_eq_getElem?_getD, List.getElem?_eq_getElem hlt]
    rfl
  · have hge : xs.length ≤ k * (t + 1) + t := by
      have h1 : xs.length / (t + 1) ≤ k := Nat.le_of_not_lt hk
      have h2 : xs.length < (k + 1) * (t + 1) :=
        (Nat.div_lt_iff_lt_mul (Nat.succ_pos t)).mp (Nat.lt_succ_of_le h1)
      have h3 : (k + 1) * (t + 1) = k * (t + 1) + t + 1 := by
        rw [Nat.succ_mul]; omega
      omega
    rw [List.get?_eq_none.mpr hge]
    rw [List.get?_eq_none.mpr (by simpa using Nat.le_of_not_lt hk)]
    simp


/-! ## Run-length encoder round trip (C6, C7) -/

theorem decodeC_append :
    ∀ (a b : List (Bool × Nat)) (ctx : Nat),
      RLE.decodeC (a ++ b) ctx =
        RLE.decodeC a ctx ++ RLE.decodeC b (RLE.ctxAfter a ctx)
  | [], b, ctx => by simp [RLE.decodeC, RLE.ctxAfter]
  | (false, v) :: a, b, ctx => by
    simp [RLE.decodeC, RLE.ctxAfter, decodeC_append a b v]
  | (true, c) :: a, b, ctx => by
    simp [RLE.decodeC, RLE.ctxAfter, decodeC_append a b ctx]

theorem ctxAfter_append (a b : List (Bool × Nat)) (ctx : Nat) :
    RLE.ctxAfter (a ++ b) ctx = RLE.ctxAfter b (RLE.ctxAfter a ctx) := by
  simp [RLE.ctxAfter, List.foldl_append]

theorem rleStepSim (w : Nat) (hw : 0 < w) (s : RLE.St) (d ctx : Nat)
    (hinv : RLE.inv w s) (hctx : s.st = true → ctx = s.data_d) :
    RLE.inv w (RLE.step w s true d true true false).1 ∧
    RLE.decodeC (RLE.step w s true d true true false).2.toList ctx ++
        RLE.pend (RLE.step w s true d true true false).1 =
      RLE.pend s ++ [d] ∧
    ((RLE.step w s true d true true false).1.st = true →
      RLE.ctxAfter (RLE.step w s true d true true false).2.toList ctx =
        (RLE.step w s true d true true false).1.data_d) ∧
    (RLE.step w s true d true true false).1.valid_d = true ∧
    (RLE.step w s true d true true false).1.data_d = d := by
  obtain ⟨hcnt, hsd, hovf0, hhd⟩ := hinv
  have hpow : 0 < 2 ^ w := pow_pos (by norm_num) w
  have hmaxpos : 1 ≤ RLE.cntMax w := by
    have h2 : 2 ≤ 2 ^ w := by
      calc 2 = 2 ^ 1 := by norm_num
      _ ≤ 2 ^ w := Nat.pow_le_pow_right (by norm_num) hw
    simp [RLE.cntMax]
    omega
  obtain ⟨st, dd, vd, hd, sd, cnt, ovf⟩ := s
  simp only at hcnt hsd hovf0 hhd hctx
  cases st with
  | false =>
    -- NEW state
    by_cases hsame : dd = d
    · subst hsame
      cases vd with
      | false =>
        have hdf : hd = false := by
          cases hd
          · rfl
          · exact absurd (hhd rfl) (by simp)
        subst hdf
        simp [RLE.step, RLE.pend, RLE.decodeC, RLE.inv, RLE.ctxAfter, hpow]
      | true =>
        by_cases hhd' : hd = true
        · subst hhd'
          simp [RLE.step, RLE.pend, RLE.decodeC, RLE.inv, RLE.ctxAfter, hpow]
        · have : hd = false := by simpa using hhd'
          subst this
          simp [RLE.step, RLE.pend, RLE.decodeC, RLE.inv, RLE.ctxAfter, hpow]
    · have hbeq : (dd == d) = false := beq_eq_false_iff_ne.mpr hsame
      cases vd <;>
        simp [RLE.step, RLE.pend, RLE.decodeC, RLE.inv, RLE.ctxAfter, hbeq, hpow]
  | true =>
    -- SAME state
    have hsd' : sd = true := hsd rfl
    subst hsd'
    have hctx' : ctx = dd := hctx rfl
    by_cases hsame : dd = d
    · have hbeq : (dd == d) = true := by simp [hsame]
      by_cases hovf : ovf = true
      · have hc0 : cnt = 0 := hovf0 hovf
        subst hc0
        subst hovf
        have hnmax : ((0 : Nat) == RLE.cntMax w) = false := by
          simp
          omega
        have hstep : RLE.step w ⟨true, dd, vd, hd, true, 0, true⟩ true d true true false
            = (⟨true, d, true, true, true, 0, false⟩, some (false, dd)) := by
          simp [RLE.step, hbeq, hnmax]
        rw [hstep]
        refine ⟨⟨hpow, fun _ => rfl, by simp, by simp⟩, ?_, ?_, rfl, rfl⟩
        · simp [RLE.decodeC, RLE.pend, hsame]
        · intro _
          simp [RLE.ctxAfter, hsame]
      · have hovf' : ovf = false := by simpa using hovf
        subst hovf'
        by_cases hmax : cnt = RLE.cntMax w
        · have hmod : (cnt + 1) % 2 ^ w = 0 := by
            have h1 : cnt + 1 = 2 ^ w := by
              simp [RLE.cntMax] at hmax
              omega
            simp [h1]
          have hbmax : (cnt == RLE.cntMax w) = true := by simp [hmax]
          have hstep : RLE.step w ⟨true, dd, vd, hd, true, cnt, false⟩ true d true true false
              = (⟨true, d, true, true, true, 0, true⟩, some (true, cnt)) := by
            simp [RLE.step, hbeq, hbmax, hmod]
          rw [hstep]
          refine ⟨⟨hpow, fun _ => rfl, fun _ => rfl, by simp⟩, ?_, ?_, rfl, rfl⟩
          · simp [RLE.decodeC, RLE.pend, hsame, hctx', List.replicate_succ']
          · intro _
            simp [RLE.ctxAfter, hsame, hctx']
        · have hbmax : (cnt == RLE.cntMax w) = false := beq_eq_false_iff_ne.mpr hmax
          have hlt : cnt + 1 < 2 ^ w := by
            simp [RLE.cntMax] at hmax
            omega
          have hmod : (cnt + 1) % 2 ^ w = cnt + 1 := Nat.mod_eq_of_lt hlt
          have hstep : RLE.step w ⟨true, dd, vd, hd, true, cnt, false⟩ true d true true false
              = (⟨true, d, true, true, true, cnt + 1, false⟩, none) := by
            simp [RLE.step, hbeq, hbmax, hmod]
          rw [hstep]
          refine ⟨⟨hlt, fun _ => rfl, by simp, by simp⟩, ?_, ?_, rfl, rfl⟩
          · simp [RLE.decodeC, RLE.pend, hsame, List.replicate_succ']
          · intro _
            simp [RLE.ctxAfter, hsame, hctx']
    · have hbeq : (dd == d) = false := beq_eq_false_iff_ne.mpr hsame
      by_cases hovf : ovf = true
      · have hc0 : cnt = 0 := hovf0 hovf
        subst hc0
        subst hovf
        have hstep : RLE.step w ⟨true, dd, vd, hd, true, 0, true⟩ true d true true false
            = (⟨false, d, true, true, false, 0, false⟩, some (false, dd)) := by
          simp [RLE.step, hbeq]
        rw [hstep]
        refine ⟨⟨hpow, by simp, by simp, by simp⟩, ?_, by simp, rfl, rfl⟩
        simp [RLE.decodeC, RLE.pend]
      · have hovf' : ovf = false := by simpa using hovf
        subst hovf'
        by_cases hmax : cnt = RLE.cntMax w
        · have hmod : (cnt + 1) % 2 ^ w = 0 := by
            have h1 : cnt + 1 = 2 ^ w := by
              simp [RLE.cntMax] at hmax
              omega
            simp [h1]
          have hbmax : (cnt == RLE.cntMax w) = true := by simp [hmax]
          have hstep : RLE.step w ⟨true, dd, vd, hd, true, cnt, false⟩ true d true true false
              = (⟨false, d, true, true, false, 0, true⟩, some (true, cnt)) := by
            simp [RLE.step, hbeq, hbmax, hmod]
          rw [hstep]
          refine ⟨⟨hpow, by simp, fun _ => rfl, by simp⟩, ?_, by simp, rfl, rfl⟩
          simp [RLE.decodeC, RLE.pend, hctx', List.replicate_succ']
        · have hbmax : (cnt == RLE.cntMax w) = false := beq_eq_false_iff_ne.mpr hmax
          have hlt : cnt + 1 < 2 ^ w := by
            simp [RLE.cntMax] at hmax
            omega
          have hmod : (cnt + 1) % 2 ^ w = cnt + 1 := Nat.mod_eq_of_lt hlt
          have hstep : RLE.step w ⟨true, dd, vd, hd, true, cnt, false⟩ true d true true false
              = (⟨false, d, true, true, false, cnt + 1, false⟩, some (true, cnt)) := by
            simp [RLE.step, hbeq, hbmax, hmod]
          rw [hstep]
          refine ⟨⟨hlt, by simp, by simp, by simp⟩, ?_, by simp, rfl, rfl⟩
          simp [RLE.decodeC, RLE.pend, hctx', List.replicate_succ']

theorem feed_append (w : Nat) :
    ∀ (as bs : List Nat) (s : RLE.St),
      RLE.feed w s (as ++ bs) =
        ((RLE.feed w (RLE.feed w s as).1 bs).1,
          (RLE.feed w s as).2 ++ (RLE.feed w (RLE.feed w s as).1 bs).2)
  | [], bs, s => by simp [RLE.feed]
  | a :: as, bs, s => by
    simp only [List.cons_append, RLE.feed, List.append_eq]
    rw [feed_append w as bs]
    simp

theorem rleFeedSim (w : Nat) (hw : 0 < w) :
    ∀ (ys : List Nat) (s : RLE.St) (ctx : Nat), RLE.inv w s →
      (s.st = true → ctx = s.data_d) →
      RLE.inv w (RLE.feed w s ys).1 ∧
      RLE.decodeC (RLE.feed w s ys).2 ctx ++ RLE.pend (RLE.feed w s ys).1 =
        RLE.pend s ++ ys ∧
      ((RLE.feed w s ys).1.st = true →
        RLE.ctxAfter (RLE.feed w s ys).2 ctx = (RLE.feed w s ys).1.data_d) ∧
      (RLE.feed w s ys).1.data_d = ys.getLastD s.data_d ∧
      (ys ≠ [] → (RLE.feed w s ys).1.valid_d = true)
  | [], s, ctx, hinv, hctx => by
    refine ⟨hinv, by simp [RLE.feed, RLE.decodeC], hctx, by simp [RLE.feed], by simp⟩
  | y :: ys, s, ctx, hinv, hctx => by
    obtain ⟨hi, he, hc, hv, hd⟩ := rleStepSim w hw s y ctx hinv hctx
    obtain ⟨ih1, ih2, ih3, ih4, ih5⟩ :=
      rleFeedSim w hw ys (RLE.step w s true y true true false).1
        (RLE.ctxAfter (RLE.step w s true y true true false).2.toList ctx) hi hc
    have hfe : RLE.feed w s (y :: ys) =
        ((RLE.feed w (RLE.step w s true y true true false).1 ys).1,
          (RLE.step w s true y true true false).2.toList ++
            (RLE.feed w (RLE.step w s true y true true false).1 ys).2) := by
      simp [RLE.feed]
    rw [hfe]
    refine ⟨ih1, ?_, ?_, ?_, fun _ => ?_⟩
    · rw [decodeC_append, List.append_assoc, ih2, ← List.append_assoc, he]
      simp
    · intro hst
      rw [ctxAfter_append]
      exact ih3 hst
    · rw [ih4, hd, List.getLastD_cons]
    · cases ys with
      | nil => simpa [RLE.feed] using hv
      | cons b bs => exact ih5 (by simp)

theorem step_st_false (w : Nat) (s : RLE.St) (z : Nat)
    (hsd : s.st = true → s.same_d = true)
    (h : s.data_d ≠ z ∨ (s.st = false ∧ s.hit_d = false)) :
    (RLE.step w s true z true true false).1.st = false := by
  obtain ⟨st, dd, vd, hd, sd, cnt, ovf⟩ := s
  simp only at hsd h
  cases st with
  | false =>
    rcases h with hne | ⟨-, hhd⟩
    · have hbeq : (dd == z) = false := beq_eq_false_iff_ne.mpr hne
      simp [RLE.step, hbeq]
    · subst hhd
      simp [RLE.step]
  | true =>
    rcases h with hne | ⟨hfalse, -⟩
    · have hsd' : sd = true := hsd rfl
      subst hsd'
      have hbeq : (dd == z) = false := beq_eq_false_iff_ne.mpr hne
      simp [RLE.step, hbeq]
    · exact absurd hfalse (by simp)

theorem step_flush_out (w : Nat) (s : RLE.St) (z : Nat)
    (h1 : s.st = false) (h2 : s.valid_d = true) (h3 : s.data_d = z) :
    (RLE.step w s false 0 false true false).2.toList = [(false, z)] := by
  obtain ⟨st, dd, vd, hd, sd, cnt, ovf⟩ := s
  simp only at h1 h2 h3
  subst h1
  subst h2
  subst h3
  simp [RLE.step]

/-- C6 amended: decoding the run-length encoder's output — flag bit 0 as the
literal/run-count discriminator, a run-count entry `c` expanding to `c + 1`
further repeats of the preceding literal — reconstructs the original sample
sequence exactly for every sequence whose final sample ends its run, i.e.
differs from the sample before it (or is the only sample); this includes
runs longer than the counter maximum `2 ^ w - 1`, which the encoder splits
into several segments.  Sequences ending in an unbroken run are not
reconstructed: their trailing run-count entry is only emitted once a later
differing sample, counter saturation or a reinit pulse arrives. -/
theorem rle_roundtrip (w : Nat) (hw : 0 < w) (xs : List Nat) (z : Nat)
    (hz : xs.getLastD (z + 1) ≠ z) :
    RLE.rleDecode (RLE.rleEncode w (xs ++ [z])) = xs ++ [z] := by
  have hinv0 : RLE.inv w RLE.st0 := by
    refine ⟨pow_pos (by norm_num) w, ?_, ?_, ?_⟩ <;> simp [RLE.st0]
  have hctx0 : RLE.st0.st = true → (0 : Nat) = RLE.st0.data_d := by
    simp [RLE.st0]
  obtain ⟨hi1, he1, hc1, hd1, hv1⟩ := rleFeedSim w hw xs RLE.st0 0 hinv0 hctx0
  obtain ⟨hi2, he2, hc2, hv2, hd2⟩ :=
    rleStepSim w hw (RLE.feed w RLE.st0 xs).1 z
      (RLE.ctxAfter (RLE.feed w RLE.st0 xs).2 0) hi1 hc1
  -- the state after the final sample z is in NEW with data_d = z
  have hst2 : (RLE.step w (RLE.feed w RLE.st0 xs).1 true z true true false).1.st
      = false := by
    apply step_st_false w _ z hi1.2.1
    cases xs with
    | nil =>
      right
      constructor <;> simp [RLE.feed, RLE.st0]
    | cons a as =>
      left
      have heq : (RLE.feed w RLE.st0 (a :: as)).1.data_d
          = (a :: as).getLastD (z + 1) := by
        rw [hd1, List.getLastD_cons, List.getLastD_cons]
      rw [heq]
      exact hz
  have hpend2 : RLE.pend (RLE.step w (RLE.feed w RLE.st0 xs).1 true z true true false).1
      = [z] := by
    simp [RLE.pend, hst2, hv2, hd2]
  -- the decoder output of the z-step entries is exactly the pending samples
  have hB : RLE.decodeC
      (RLE.step w (RLE.feed w RLE.st0 xs).1 true z true true false).2.toList
      (RLE.ctxAfter (RLE.feed w RLE.st0 xs).2 0)
      = RLE.pend (RLE.feed w RLE.st0 xs).1 := by
    have h1 := he2
    rw [hpend2] at h1
    have := congrArg List.dropLast h1
    simpa [List.dropLast_concat] using this
  -- the flush tick emits the literal for z
  have hflush := step_flush_out w _ z hst2 hv2 hd2
  -- assemble
  have hfeedall := feed_append w xs [z] RLE.st0
  have hfeedz : RLE.feed w (RLE.feed w RLE.st0 xs).1 [z]
      = ((RLE.step w (RLE.feed w RLE.st0 xs).1 true z true true false).1,
        (RLE.step w (RLE.feed w RLE.st0 xs).1 true z true true false).2.toList) := by
    simp [RLE.feed]
  rw [RLE.rleDecode, RLE.rleEncode, hfeedall, hfeedz, hflush]
  simp only []
  rw [List.append_assoc, decodeC_append, decodeC_append, hB]
  have hA : RLE.decodeC (RLE.feed w RLE.st0 xs).2 0
      ++ RLE.pend (RLE.feed w RLE.st0 xs).1 = xs := by
    rw [he1]
    simp [RLE.pend, RLE.st0]
  rw [← List.append_assoc, hA]
  simp [RLE.decodeC]

/-- C5 witness: threshold 1 on a five-sample stream forwards the second and
fourth samples. -/
theorem subsampler_decimation_witness :
    (1 < 2 ^ 16) ∧
      (SubSampler.ssRun 16 1 0 [10, 20, 30, 40, 50] =
          SubSampler.everyNth 1 [10, 20, 30, 40, 50] ∧
        (SubSampler.ssRun 16 1 0 [10, 20, 30, 40, 50]).Sublist
          [10, 20, 30, 40, 50]) :=
  ⟨by decide, subsampler_decimation 16 1 [10, 20, 30, 40, 50] (by decide)⟩

/-- C6 counterexample: the round trip fails for a sequence ending in an
unbroken run.  For input `[0, 0]` the encoder emits only the literal `0`:
the run-count entry for the second `0` is never emitted, because a count
entry leaves the `SAME` state only on a later differing sample, counter
saturation or a reinit pulse — none of which the stream provides — so
decoding yields `[0]`, not `[0, 0]`. -/
theorem rle_roundtrip_counterexample :
    RLE.rleEncode 8 [0, 0] = [(false, 0)] ∧
      RLE.rleDecode (RLE.rleEncode 8 [0, 0]) ≠ [0, 0] := by
  refine ⟨by decide, by decide⟩

/-- C6 witness: with a 2-bit counter (maximum 3) a run of seven equal
samples overflows the counter, the encoder splits it into several segments,
and decoding still reconstructs the input exactly. -/
theorem rle_roundtrip_witness :
    (0 < 2) ∧ ([5, 5, 5, 5, 5, 5, 5].getLastD (7 + 1) ≠ 7) ∧
      RLE.rleDecode (RLE.rleEncode 2 ([5, 5, 5, 5, 5, 5, 5] ++ [7])) =
        [5, 5, 5, 5, 5, 5, 5] ++ [7] :=
  ⟨by decide, by decide,
    rle_roundtrip 2 (by decide) [5, 5, 5, 5, 5, 5, 5] 7 (by decide)⟩

/-- C7: with compression enabled, the post-trigger input `[5,5,5,5,5,7]`
(hit flag set, downstream always ready) makes the encoder emit exactly one
literal entry `5`, then one run-count entry — stored count 3, which the
decoder expands to the 4 remaining repeats — then one literal entry `7`, in
that order, and decoding that output restores the input. -/
theorem rle_scenario :
    RLE.rleEncode 8 [5, 5, 5, 5, 5, 7] = [(false, 5), (true, 3), (false, 7)] ∧
      RLE.decodeC [(true, 3)] 5 = [5, 5, 5, 5] ∧
      RLE.rleDecode (RLE.rleEncode 8 [5, 5, 5, 5, 5, 7]) = [5, 5, 5, 5, 5, 7] := by
  refine ⟨by decide, by decide, by decide⟩

end LiteScope
